import Mathlib

/-!
Verification of the normalizing-flow image-modeling pipeline in
docs/tutorial_notebooks/tutorial9/NF_image_modeling.py.

Tensors of shape (B, C, H, W) are embedded as curried functions
Fin C → Fin H → Fin W → ℝ over exact real arithmetic; the batch
dimension is modelled explicitly only where a claim is about batching
(the batched definitions near the end).  Integer-valued image tensors
(pre-dequantization / post-reverse) take values in ℤ.  The log-det
Jacobian accumulator (ldj) is one real number per (batched: per batch
element) image.  The convolutional function approximator inside a
coupling layer is kept opaque, exactly as the spec specifies it: an
arbitrary function from a tensor to a tensor of twice the channel
count (the optional side-conditioning input of CouplingLayer.forward
is a fixed partial application of that function).
-/

noncomputable section

/-- A (C, H, W) real tensor (one batch element). -/
abbrev Tensor (C H W : ℕ) : Type := Fin C → Fin H → Fin W → ℝ

/-- A (C, H, W) integer tensor (discrete pixel values). -/
abbrev ZTensor (C H W : ℕ) : Type := Fin C → Fin H → Fin W → ℤ

/-- Sum of all entries of a tensor: models `tensor.sum(dim=[1,2,3])`
for one batch element. -/
def sumCHW {C H W : ℕ} (f : Tensor C H W) : ℝ := ∑ c, ∑ h, ∑ w, f c h w

theorem sumCHW_one (f : Tensor 1 1 1) : sumCHW f = f 0 0 0 := by
  simp [sumCHW]

/-! ### Mask generation (source lines 284-290)

`create_channel_mask` concatenates `torch.ones(c_in//2)` with
`torch.zeros(c_in - c_in//2)` and reshapes to (1, c_in, 1, 1); the
singleton broadcast dimensions are dropped here, so the mask is a
function of the channel index. -/

/-- The concatenation `torch.cat([torch.ones(c_in//2), torch.zeros(c_in - c_in//2)])`. -/
def channelMaskList (c_in : ℕ) : List ℝ :=
  List.replicate (c_in / 2) 1 ++ List.replicate (c_in - c_in / 2) 0

theorem channelMaskList_length (c_in : ℕ) : (channelMaskList c_in).length = c_in := by
  simp only [channelMaskList, List.length_append, List.length_replicate]
  omega

/-- `create_channel_mask(c_in, invert)` from the source, as a function of
the channel index (the (1, c_in, 1, 1) view broadcasts over the other
dimensions). -/
def create_channel_mask (c_in : ℕ) (invert : Bool) : Fin c_in → ℝ := fun i =>
  let m := (channelMaskList c_in).get
    ⟨i.val, by rw [channelMaskList_length]; exact i.isLt⟩
  if invert then 1 - m else m

/-- The channel mask as the SPEC describes it (1 on the first ⌈c/2⌉
channels); used only to compare the spec text with the code. -/
def specCeilChannelMask (c_in : ℕ) (invert : Bool) : Fin c_in → ℝ := fun i =>
  let m : ℝ := if (i : ℕ) < (c_in + 1) / 2 then 1 else 0
  if invert then 1 - m else m

/-- Claim C3 (counterexample): the code's channel mask is NOT 1 on the
first ⌈c/2⌉ channels: at c_in = 1 the code produces an all-zero mask
(`torch.ones(1//2)` is empty) while the spec's ⌈1/2⌉ = 1 would make
channel 0 equal to 1. -/
theorem create_channel_mask_ceil_cex :
    ¬ (create_channel_mask 1 false = specCeilChannelMask 1 false) := by
  intro hEq
  have h0 := congrFun hEq ⟨0, Nat.one_pos⟩
  have hcode : create_channel_mask 1 false ⟨0, Nat.one_pos⟩ = 0 := rfl
  have hspec : specCeilChannelMask 1 false ⟨0, Nat.one_pos⟩ = 1 := by
    simp [specCeilChannelMask]
  rw [hcode, hspec] at h0
  norm_num at h0

/-- Claim C3 (amended): for every channel count c, the mask produced by
`create_channel_mask(c, invert=False)` is 1 for the first ⌊c/2⌋ channels
and 0 for the remaining channels, and invert=True yields 1 minus that
mask. -/
theorem create_channel_mask_spec (c_in : ℕ) (invert : Bool) (i : Fin c_in) :
    create_channel_mask c_in invert i =
      (if invert then 1 - (if (i : ℕ) < c_in / 2 then (1 : ℝ) else 0)
       else (if (i : ℕ) < c_in / 2 then (1 : ℝ) else 0)) := by
  have key : (channelMaskList c_in).get
      ⟨i.val, by rw [channelMaskList_length]; exact i.isLt⟩
        = (if (i : ℕ) < c_in / 2 then (1 : ℝ) else 0) := by
    rw [List.get_eq_getElem]
    unfold channelMaskList
    rcases lt_or_ge (i : ℕ) (c_in / 2) with hlt | hge
    · rw [List.getElem_append_left (by simpa [channelMaskList] using hlt)]
      simp [hlt]
    · rw [List.getElem_append_right (by simpa [channelMaskList] using hge)]
      simp [if_neg (not_lt.mpr hge)]
  simp only [create_channel_mask, key]

/-! ### SqueezeFlow (source lines 527-537)

Forward: `z.reshape(B, C, H//2, 2, W//2, 2).permute(0,1,3,5,2,4)
.reshape(B, 4C, H//2, W//2)`.  Tracing an element (c, h, w) of the
input through reshape / permute / reshape, it lands at output channel
c*4 + (h%2)*2 + (w%2) and spatial position (h/2, w/2); equivalently
the output at (c4, i, j) reads the input at
(c4/4, 2*i + (c4%4)/2, 2*j + c4%2).  Reverse: `z.reshape(B, C//4, 2, 2,
H, W).permute(0,1,4,2,5,3).reshape(B, C//4, 2H, 2W)`: the output at
(c, x, y) reads the input at (4*c + 2*(x%2) + y%2, x/2, y/2).  The
evenness requirement on H and W (torch's reshape would fail otherwise)
is carried in the types as 2*h and 2*w.  Both directions return ldj
untouched. -/

/-- SqueezeFlow.forward with reverse=False. -/
def squeezeForward {C h w : ℕ} (z : Tensor C (2 * h) (2 * w)) (ldj : ℝ) :
    Tensor (4 * C) h w × ℝ :=
  ((fun c4 i j =>
      z ⟨(c4 : ℕ) / 4, by have := c4.isLt; omega⟩
        ⟨2 * (i : ℕ) + ((c4 : ℕ) % 4) / 2, by have := i.isLt; omega⟩
        ⟨2 * (j : ℕ) + (c4 : ℕ) % 2, by have := j.isLt; omega⟩),
   ldj)

/-- SqueezeFlow.forward with reverse=True. -/
def squeezeReverse {C h w : ℕ} (z : Tensor (4 * C) h w) (ldj : ℝ) :
    Tensor C (2 * h) (2 * w) × ℝ :=
  ((fun c x y =>
      z ⟨4 * (c : ℕ) + 2 * ((x : ℕ) % 2) + (y : ℕ) % 2, by have := c.isLt; omega⟩
        ⟨(x : ℕ) / 2, by have := x.isLt; omega⟩
        ⟨(y : ℕ) / 2, by have := y.isLt; omega⟩),
   ldj)

/-- Claim C4: for every tensor with even spatial dimensions, the squeeze
forward pass (which rearranges each spatial 2x2 block into 4 channels,
producing shape (4C, H/2, W/2)) followed by the reverse pass returns the
input exactly, and the ldj accumulator passes through both directions
unchanged. -/
theorem squeeze_roundtrip {C h w : ℕ} (z : Tensor C (2 * h) (2 * w)) (ldj : ℝ) :
    squeezeReverse (squeezeForward z ldj).1 (squeezeForward z ldj).2 = (z, ldj) := by
  refine Prod.ext ?_ rfl
  funext c x y
  show z ⟨_, _⟩ ⟨_, _⟩ ⟨_, _⟩ = z c x y
  have hc : ((4 * (c : ℕ) + 2 * ((x : ℕ) % 2) + (y : ℕ) % 2) / 4) = (c : ℕ) := by omega
  have hx : 2 * ((x : ℕ) / 2) + ((4 * (c : ℕ) + 2 * ((x : ℕ) % 2) + (y : ℕ) % 2) % 4) / 2
      = (x : ℕ) := by omega
  have hy : 2 * ((y : ℕ) / 2) + (4 * (c : ℕ) + 2 * ((x : ℕ) % 2) + (y : ℕ) % 2) % 2
      = (y : ℕ) := by omega
  congr 1 <;> first
    | exact Fin.ext hc
    | exact Fin.ext hx
    | exact Fin.ext hy

/-! ### SplitFlow (source lines 555-569)

`z.chunk(2, dim=1)` halves the channel dimension (channels [0, C) and
[C, 2C)); the prior is the standard normal, whose log-density torch's
`Normal(0,1).log_prob` computes as -x^2/2 - log(sqrt(2*pi)).  In the
reverse direction the freshly sampled half is an explicit argument. -/

/-- Standard normal log-density, `torch.distributions.Normal(0,1).log_prob`. -/
def stdNormalLogProb (x : ℝ) : ℝ := -(x ^ 2) / 2 - Real.log (Real.sqrt (2 * Real.pi))

/-- First half of `z.chunk(2, dim=1)`. -/
def chunkFst {C H W : ℕ} (z : Tensor (C + C) H W) : Tensor C H W :=
  fun c => z (Fin.castAdd C c)

/-- Second half of `z.chunk(2, dim=1)`. -/
def chunkSnd {C H W : ℕ} (z : Tensor (C + C) H W) : Tensor C H W :=
  fun c => z (Fin.natAdd C c)

/-- `torch.cat([x, y], dim=1)` on two equal channel halves. -/
def catChannels {C H W : ℕ} (x y : Tensor C H W) : Tensor (C + C) H W := fun c =>
  if hc : (c : ℕ) < C then x ⟨c, hc⟩ else y ⟨(c : ℕ) - C, by have := c.isLt; omega⟩

/-- SplitFlow.forward with reverse=False: keep the first half, add the
prior log-probability of the split-off half to ldj. -/
def splitForward {C H W : ℕ} (z : Tensor (C + C) H W) (ldj : ℝ) : Tensor C H W × ℝ :=
  (chunkFst z, ldj + sumCHW (fun c h w => stdNormalLogProb (chunkSnd z c h w)))

/-- SplitFlow.forward with reverse=True: concatenate the (sampled) half
back and subtract its prior log-probability from ldj. -/
def splitReverse {C H W : ℕ} (z z_split : Tensor C H W) (ldj : ℝ) :
    Tensor (C + C) H W × ℝ :=
  (catChannels z z_split, ldj - sumCHW (fun c h w => stdNormalLogProb (z_split c h w)))

/-- Claim C5: the forward Split adds exactly the prior log-probability of
the split-off half to ldj and the reverse Split subtracts exactly the
prior log-probability of the concatenated-back half, so with the same
split-half realization the reverse undoes the forward exactly (tensor and
ldj: the two ldj contributions cancel to zero); moreover ldj after the
forward Split plus the prior log-probability of the retained half equals
ldj before plus the prior log-probability of the whole tensor, i.e. the
accounting is exactly a deferred likelihood evaluation of that half. -/
theorem split_accounting {C H W : ℕ} (z : Tensor (C + C) H W) (ldj : ℝ) :
    splitReverse (splitForward z ldj).1 (chunkSnd z) (splitForward z ldj).2 = (z, ldj) ∧
    (splitForward z ldj).2 + sumCHW (fun c h w => stdNormalLogProb ((splitForward z ldj).1 c h w))
      = ldj + sumCHW (fun c h w => stdNormalLogProb (z c h w)) := by
  constructor
  · refine Prod.ext ?_ ?_
    · funext c
      show catChannels (chunkFst z) (chunkSnd z) c = z c
      by_cases hc : (c : ℕ) < C
      · have hidx : Fin.castAdd C ⟨(c : ℕ), hc⟩ = c := Fin.ext rfl
        simp only [catChannels, dif_pos hc, chunkFst, hidx]
      · have hidx : Fin.natAdd C ⟨(c : ℕ) - C, by have := c.isLt; omega⟩ = c := by
          refine Fin.ext ?_
          show C + ((c : ℕ) - C) = (c : ℕ)
          omega
        simp only [catChannels, dif_neg hc, chunkSnd, hidx]
    · show (splitForward z ldj).2 - _ = ldj
      simp [splitForward]
  · have hsplit : (∑ c : Fin (C + C), ∑ h, ∑ w, stdNormalLogProb (z c h w))
        = (∑ c : Fin C, ∑ h, ∑ w, stdNormalLogProb (z (Fin.castAdd C c) h w))
          + (∑ c : Fin C, ∑ h, ∑ w, stdNormalLogProb (z (Fin.natAdd C c) h w)) :=
      Fin.sum_univ_add (fun c => ∑ h, ∑ w, stdNormalLogProb (z c h w))
    simp only [splitForward, chunkFst, chunkSnd, sumCHW]
    rw [hsplit]
    ring

/-! ### CouplingLayer (source lines 238-269)

State: a mask buffer, the function approximator `network`, and the
trainable per-channel `scaling_factor`.  The approximator's output has
twice the data channel count and is split by `chunk(2, dim=1)` into the
raw scale (first half) and the translation (second half); when a
side-conditioning image is concatenated to the masked input
(`orig_img` in the source), that concatenation is a fixed partial
application absorbed into `network`, which the spec treats as opaque. -/

structure CouplingLayer (C H W : ℕ) where
  mask : Tensor C H W
  network : Tensor C H W → Tensor (C + C) H W
  scaling_factor : Fin C → ℝ

/-- `z_in = z * self.mask`. -/
def maskedInput {C H W : ℕ} (L : CouplingLayer C H W) (z : Tensor C H W) :
    Tensor C H W :=
  fun c h w => z c h w * L.mask c h w

/-- The stabilized scale: `s = tanh(s / s_fac) * s_fac` with
`s_fac = scaling_factor.exp()`, then `s = s * (1 - mask)`. -/
def couplingScale {C H W : ℕ} (L : CouplingLayer C H W) (z_in : Tensor C H W) :
    Tensor C H W :=
  fun c h w =>
    Real.tanh (chunkFst (L.network z_in) c h w / Real.exp (L.scaling_factor c))
      * Real.exp (L.scaling_factor c) * (1 - L.mask c h w)

/-- The translation: `t = t * (1 - mask)`. -/
def couplingShift {C H W : ℕ} (L : CouplingLayer C H W) (z_in : Tensor C H W) :
    Tensor C H W :=
  fun c h w => chunkSnd (L.network z_in) c h w * (1 - L.mask c h w)

/-- CouplingLayer.forward with reverse=False:
`z = (z + t) * exp(s)`, `ldj += s.sum(dim=[1,2,3])`. -/
def couplingForward {C H W : ℕ} (L : CouplingLayer C H W) (z : Tensor C H W)
    (ldj : ℝ) : Tensor C H W × ℝ :=
  ((fun c h w =>
      (z c h w + couplingShift L (maskedInput L z) c h w)
        * Real.exp (couplingScale L (maskedInput L z) c h w)),
   ldj + sumCHW (couplingScale L (maskedInput L z)))

/-- CouplingLayer.forward with reverse=True:
`z = (z * exp(-s)) - t`, `ldj -= s.sum(dim=[1,2,3])`. -/
def couplingReverse {C H W : ℕ} (L : CouplingLayer C H W) (z : Tensor C H W)
    (ldj : ℝ) : Tensor C H W × ℝ :=
  ((fun c h w =>
      z c h w * Real.exp (-(couplingScale L (maskedInput L z) c h w))
        - couplingShift L (maskedInput L z) c h w),
   ldj - sumCHW (couplingScale L (maskedInput L z)))

/-- For a 0/1 mask, the forward pass leaves the masked input unchanged,
so the reverse pass recomputes the approximator on the same input. -/
theorem maskedInput_couplingForward {C H W : ℕ} (L : CouplingLayer C H W)
    (z : Tensor C H W) (ldj : ℝ)
    (hmask : ∀ c h w, L.mask c h w = 0 ∨ L.mask c h w = 1) :
    maskedInput L (couplingForward L z ldj).1 = maskedInput L z := by
  funext c h w
  rcases hmask c h w with h0 | h1
  · simp [maskedInput, couplingForward, h0]
  · simp [maskedInput, couplingForward, couplingScale, couplingShift, h1]

/-- Claim C1: for every input tensor, 0/1 mask, scaling-factor parameter
and function approximator, applying CouplingLayer.forward with
reverse=False and then reverse=True (same layer, same realization)
returns the input tensor and ldj exactly, the ldj increments of the two
directions sum to zero, and positions where mask = 1 are left unchanged
by both directions. -/
theorem coupling_invertible {C H W : ℕ} (L : CouplingLayer C H W)
    (z : Tensor C H W) (ldj : ℝ)
    (hmask : ∀ c h w, L.mask c h w = 0 ∨ L.mask c h w = 1) :
    couplingReverse L (couplingForward L z ldj).1 (couplingForward L z ldj).2
        = (z, ldj) ∧
    ((couplingForward L z ldj).2 - ldj)
      + ((couplingReverse L (couplingForward L z ldj).1
            (couplingForward L z ldj).2).2 - (couplingForward L z ldj).2) = 0 ∧
    (∀ c h w, L.mask c h w = 1 → (couplingForward L z ldj).1 c h w = z c h w) ∧
    (∀ c h w, L.mask c h w = 1 → (couplingReverse L z ldj).1 c h w = z c h w) := by
  have hkey := maskedInput_couplingForward L z ldj hmask
  have hpair : couplingReverse L (couplingForward L z ldj).1
      (couplingForward L z ldj).2 = (z, ldj) := by
    refine Prod.ext ?_ ?_
    · funext c h w
      show (couplingForward L z ldj).1 c h w
          * Real.exp (-(couplingScale L (maskedInput L (couplingForward L z ldj).1) c h w))
          - couplingShift L (maskedInput L (couplingForward L z ldj).1) c h w = z c h w
      rw [hkey]
      show (z c h w + couplingShift L (maskedInput L z) c h w)
          * Real.exp (couplingScale L (maskedInput L z) c h w)
          * Real.exp (-(couplingScale L (maskedInput L z) c h w))
          - couplingShift L (maskedInput L z) c h w = z c h w
      rw [mul_assoc, ← Real.exp_add, add_neg_cancel, Real.exp_zero, mul_one,
        add_sub_cancel_right]
    · show (couplingForward L z ldj).2
          - sumCHW (couplingScale L (maskedInput L (couplingForward L z ldj).1)) = ldj
      rw [hkey]
      show ldj + sumCHW (couplingScale L (maskedInput L z))
          - sumCHW (couplingScale L (maskedInput L z)) = ldj
      ring
  refine ⟨hpair, ?_, ?_, ?_⟩
  · rw [hpair]
    show (couplingForward L z ldj).2 - ldj + (ldj - (couplingForward L z ldj).2) = 0
    ring
  · intro c h w h1
    simp [couplingForward, couplingScale, couplingShift, h1]
  · intro c h w h1
    simp [couplingReverse, couplingScale, couplingShift, h1]

/-- A concrete 1x1x1 coupling layer used to witness `coupling_invertible`. -/
def witnessCouplingLayer : CouplingLayer 1 1 1 :=
  ⟨fun _ _ _ => 1, fun _ => fun _ _ _ => 0, fun _ => 0⟩

theorem coupling_invertible_witness :
    couplingReverse witnessCouplingLayer
        (couplingForward witnessCouplingLayer (fun _ _ _ => 0) 0).1
        (couplingForward witnessCouplingLayer (fun _ _ _ => 0) 0).2
        = ((fun _ _ _ => 0), 0) ∧
    ((couplingForward witnessCouplingLayer (fun _ _ _ => 0) 0).2 - 0)
      + ((couplingReverse witnessCouplingLayer
            (couplingForward witnessCouplingLayer (fun _ _ _ => 0) 0).1
            (couplingForward witnessCouplingLayer (fun _ _ _ => 0) 0).2).2
          - (couplingForward witnessCouplingLayer (fun _ _ _ => 0) 0).2) = 0 ∧
    (∀ c h w, witnessCouplingLayer.mask c h w = 1 →
      (couplingForward witnessCouplingLayer (fun _ _ _ => 0) 0).1 c h w = 0) ∧
    (∀ c h w, witnessCouplingLayer.mask c h w = 1 →
      (couplingReverse witnessCouplingLayer (fun _ _ _ => 0) 0).1 c h w = 0) :=
  coupling_invertible witnessCouplingLayer (fun _ _ _ => 0) 0
    (fun _ _ _ => Or.inr rfl)

/-! ### Invertible1x1ConvLU (source lines 600-638)

`self.l_mask` is `np.tril(ones, -1)` (ones strictly below the diagonal)
and `self.eye` the identity.  On every call the layer reconstructs
`l = l * l_mask + eye` (unit lower triangular),
`u = u * l_mask.T + diag(sign_s * exp(log_s))` (upper triangular with
diagonal `sign_s * exp(log_s)`), and `w = p @ (l @ u)` with `p` the
fixed permutation buffer from the initial scipy LU decomposition; the
forward ldj contribution is `log_s.sum() * H * W`.  The direct form
(Invertible1x1Conv, lines 575-594) uses `slogdet(weight)[1] * H * W`,
i.e. log of the absolute determinant of the mixing matrix; Claim C2
equates the two. -/

/-- `np.tril(np.ones((c,c)), -1)`: ones strictly below the diagonal. -/
def l_mask (c_in : ℕ) : Matrix (Fin c_in) (Fin c_in) ℝ :=
  Matrix.of fun i j => if (j : ℕ) < (i : ℕ) then 1 else 0

/-- `l * l_mask + eye`: the unit lower-triangular factor used on every call. -/
def luFactorL {c_in : ℕ} (l : Matrix (Fin c_in) (Fin c_in) ℝ) :
    Matrix (Fin c_in) (Fin c_in) ℝ :=
  Matrix.of (fun i j => l i j * l_mask c_in i j) + 1

/-- `u * l_mask.transpose(0,1) + torch.diag(sign_s * torch.exp(log_s))`. -/
def luFactorU {c_in : ℕ} (u : Matrix (Fin c_in) (Fin c_in) ℝ)
    (sign_s log_s : Fin c_in → ℝ) : Matrix (Fin c_in) (Fin c_in) ℝ :=
  Matrix.of (fun i j => u i j * (l_mask c_in).transpose i j)
    + Matrix.diagonal (fun i => sign_s i * Real.exp (log_s i))

/-- `w = torch.matmul(p, torch.matmul(l, u))` with `p` a permutation matrix. -/
def luWeight {c_in : ℕ} (σ : Equiv.Perm (Fin c_in))
    (l u : Matrix (Fin c_in) (Fin c_in) ℝ) (sign_s log_s : Fin c_in → ℝ) :
    Matrix (Fin c_in) (Fin c_in) ℝ :=
  σ.permMatrix ℝ * (luFactorL l * luFactorU u sign_s log_s)

theorem luFactorL_det {c_in : ℕ} (l : Matrix (Fin c_in) (Fin c_in) ℝ) :
    (luFactorL l).det = 1 := by
  rw [Matrix.det_of_lowerTriangular (luFactorL l)]
  · refine Finset.prod_eq_one fun i _ => ?_
    simp [luFactorL, l_mask, Matrix.one_apply]
  · intro i j hij
    have hij' : (i : ℕ) < (j : ℕ) := hij
    have hne : i ≠ j := by
      intro hEq
      rw [hEq] at hij'
      exact lt_irrefl _ hij'
    show l i j * l_mask c_in i j + (1 : Matrix (Fin c_in) (Fin c_in) ℝ) i j = 0
    rw [Matrix.one_apply_ne hne]
    simp only [Matrix.of_apply, l_mask, if_neg (by omega : ¬ (j : ℕ) < (i : ℕ))]
    ring
theorem luFactorU_det {c_in : ℕ} (u : Matrix (Fin c_in) (Fin c_in) ℝ)
    (sign_s log_s : Fin c_in → ℝ) :
    (luFactorU u sign_s log_s).det = ∏ i, sign_s i * Real.exp (log_s i) := by
  rw [Matrix.det_of_upperTriangular]
  · refine Finset.prod_congr rfl fun i _ => ?_
    simp [luFactorU, l_mask, Matrix.diagonal_apply_eq]
  · intro i j hij
    have hij' : (j : ℕ) < (i : ℕ) := hij
    have hne : i ≠ j := by
      intro hEq
      rw [hEq] at hij'
      exact lt_irrefl _ hij'
    show u i j * (l_mask c_in).transpose i j
        + Matrix.diagonal (fun i => sign_s i * Real.exp (log_s i)) i j = 0
    rw [Matrix.diagonal_apply_ne _ hne]
    simp only [Matrix.transpose_apply, Matrix.of_apply, l_mask,
      if_neg (by omega : ¬ (i : ℕ) < (j : ℕ))]
    ring

/-- Claim C2: for every permutation matrix P, unit-lower-triangular L,
strictly-upper U, sign vector and log-magnitude vector, the forward ldj
contribution of Invertible1x1ConvLU, `log_s.sum() * H * W`, equals
`log |det W| * H * W` computed from the reconstructed mixing matrix
`W = P (L (diag(sign_s * exp(log_s)) + strict-upper U))`. -/
theorem invertible1x1ConvLU_ldj (c_in Hs Ws : ℕ) (σ : Equiv.Perm (Fin c_in))
    (l u : Matrix (Fin c_in) (Fin c_in) ℝ) (sign_s log_s : Fin c_in → ℝ)
    (hsign : ∀ i, sign_s i = 1 ∨ sign_s i = -1) :
    (∑ i, log_s i) * (Hs : ℝ) * (Ws : ℝ)
      = Real.log |(luWeight σ l u sign_s log_s).det| * (Hs : ℝ) * (Ws : ℝ) := by
  have hdet : (luWeight σ l u sign_s log_s).det
      = ((Equiv.Perm.sign σ : ℤ) : ℝ) * ∏ i, sign_s i * Real.exp (log_s i) := by
    rw [luWeight, Matrix.det_mul, Matrix.det_mul, Matrix.det_permutation,
      luFactorL_det, luFactorU_det]
    ring
  have habs : |(luWeight σ l u sign_s log_s).det| = ∏ i, Real.exp (log_s i) := by
    rw [hdet, abs_mul, Finset.abs_prod]
    have h1 : |((Equiv.Perm.sign σ : ℤ) : ℝ)| = 1 := by
      rcases Int.units_eq_one_or (Equiv.Perm.sign σ) with h | h <;> rw [h] <;> norm_num
    have h2 : ∀ i ∈ Finset.univ, |sign_s i * Real.exp (log_s i)| = Real.exp (log_s i) := by
      intro i _
      rcases hsign i with h | h <;>
        rw [h, abs_mul] <;>
        simp [abs_of_pos (Real.exp_pos (log_s i))]
    rw [h1, Finset.prod_congr rfl h2, one_mul]
  rw [habs, ← Real.exp_sum, Real.log_exp]

/-- Witness for `invertible1x1ConvLU_ldj`: the identity permutation, zero
strictly-triangular parts, all signs 1 and log-magnitudes 0 on a single
channel. -/
theorem invertible1x1ConvLU_ldj_witness :
    (∑ i : Fin 1, (0 : ℝ)) * ((1 : ℕ) : ℝ) * ((1 : ℕ) : ℝ)
      = Real.log |(luWeight (1 : Equiv.Perm (Fin 1)) 0 0 (fun _ => 1) (fun _ => 0)).det|
          * ((1 : ℕ) : ℝ) * ((1 : ℕ) : ℝ) :=
  invertible1x1ConvLU_ldj 1 1 1 1 0 0 (fun _ => 1) (fun _ => 0) (fun _ => Or.inl rfl)

/-! ### Dequantization (source lines 151-183) and
VariationalDequantization (lines 216-232)

`forward(z, ldj, reverse=False)` runs `dequant` (cast to float, add
uniform noise, divide by 256, ldj -= log(256) * num_pixels) and then
`sigmoid(reverse=True)` (blend by alpha, ldj += log(1-alpha) *
num_pixels + sum(-log z - log(1-z)), then the logit).
`forward(z, ldj, reverse=True)` runs `sigmoid(reverse=False)`
(ldj += sum(-z - 2*softplus(-z)), z = sigmoid(z)), multiplies by 256,
floors, clamps to [0, 255] and casts to integer.
VariationalDequantization overrides only `dequant`; the reverse branch
of the inherited `forward` is untouched.  The uniform noise draw is an
explicit argument `u` (one real per pixel in [0, 1)). -/

/-- `torch.sigmoid`. -/
def sigmoidFn (x : ℝ) : ℝ := 1 / (1 + Real.exp (-x))

/-- `F.softplus`. -/
def softplus (x : ℝ) : ℝ := Real.log (1 + Real.exp x)

/-- The alpha boundary blend `z * (1 - alpha) + 0.5 * alpha`. -/
def deqBlend (alpha x : ℝ) : ℝ := x * (1 - alpha) + 0.5 * alpha

/-- `Dequantization.sigmoid(z, ldj, reverse=True)` (the logit direction). -/
def sigmoidRevT {C H W : ℕ} (alpha : ℝ) (z : Tensor C H W) (ldj : ℝ) :
    Tensor C H W × ℝ :=
  ((fun c h w =>
      Real.log (deqBlend alpha (z c h w)) - Real.log (1 - deqBlend alpha (z c h w))),
   ldj + Real.log (1 - alpha) * ((C * H * W : ℕ) : ℝ)
     + sumCHW (fun c h w =>
         -Real.log (deqBlend alpha (z c h w)) - Real.log (1 - deqBlend alpha (z c h w))))

/-- `Dequantization.sigmoid(z, ldj, reverse=False)`. -/
def sigmoidFwdT {C H W : ℕ} (z : Tensor C H W) (ldj : ℝ) : Tensor C H W × ℝ :=
  ((fun c h w => sigmoidFn (z c h w)),
   ldj + sumCHW (fun c h w => -(z c h w) - 2 * softplus (-(z c h w))))

/-- `Dequantization.dequant`: uniform-noise dequantization. -/
def uniformDequant {C H W : ℕ} (v : ZTensor C H W) (u : Tensor C H W) (ldj : ℝ) :
    Tensor C H W × ℝ :=
  ((fun c h w => ((v c h w : ℝ) + u c h w) / 256),
   ldj - Real.log 256 * ((C * H * W : ℕ) : ℝ))

/-- `Dequantization.forward(..., reverse=False)`. -/
def dequantForward {C H W : ℕ} (alpha : ℝ) (v : ZTensor C H W) (u : Tensor C H W)
    (ldj : ℝ) : Tensor C H W × ℝ :=
  sigmoidRevT alpha (uniformDequant v u ldj).1 (uniformDequant v u ldj).2

/-- `Dequantization.forward(..., reverse=True)`: sigmoid, scale by 256,
floor, clamp to [0, 255], cast to integer. -/
def dequantReverse {C H W : ℕ} (alpha : ℝ) (z : Tensor C H W) (ldj : ℝ) :
    ZTensor C H W × ℝ :=
  ((fun c h w => max 0 (min 255 ⌊(sigmoidFwdT z ldj).1 c h w * 256⌋)),
   (sigmoidFwdT z ldj).2)

/-- `VariationalDequantization.dequant` (source lines 222-232): the noise
flows are coupling layers conditioned on the rescaled image; each flow
is given the conditioning image, the current noise tensor and ldj. -/
def variationalDequant {C H W : ℕ} (alpha : ℝ)
    (var_flows : List (Tensor C H W → Tensor C H W → ℝ → Tensor C H W × ℝ))
    (v : ZTensor C H W) (u : Tensor C H W) (ldj : ℝ) : Tensor C H W × ℝ :=
  let img : Tensor C H W := fun c h w => ((v c h w : ℝ) / 255) * 2 - 1
  let p1 := sigmoidRevT alpha u ldj
  let p2 := var_flows.foldl (fun q f => f img q.1 q.2) p1
  let p3 := sigmoidFwdT p2.1 p2.2
  ((fun c h w => ((v c h w : ℝ) + p3.1 c h w) / 256),
   p3.2 - Real.log 256 * ((C * H * W : ℕ) : ℝ))

/-- `VariationalDequantization.forward(..., reverse=False)`: the inherited
forward with the overridden dequant step. -/
def varDequantForward {C H W : ℕ} (alpha : ℝ)
    (var_flows : List (Tensor C H W → Tensor C H W → ℝ → Tensor C H W × ℝ))
    (v : ZTensor C H W) (u : Tensor C H W) (ldj : ℝ) : Tensor C H W × ℝ :=
  sigmoidRevT alpha (variationalDequant alpha var_flows v u ldj).1
    (variationalDequant alpha var_flows v u ldj).2

/-- `VariationalDequantization.forward(..., reverse=True)`: the inherited
reverse branch, written out; it never calls `dequant`, so the noise flows
(part of the layer's state) do not appear in the body. -/
def varDequantReverse {C H W : ℕ} (alpha : ℝ)
    (var_flows : List (Tensor C H W → Tensor C H W → ℝ → Tensor C H W × ℝ))
    (z : Tensor C H W) (ldj : ℝ) : ZTensor C H W × ℝ :=
  ((fun c h w => max 0 (min 255 ⌊(sigmoidFwdT z ldj).1 c h w * 256⌋)),
   (sigmoidFwdT z ldj).2)

/-- Claim C9: for every input, ldj and alpha, the reverse direction of
VariationalDequantization produces exactly the same output tensor and ldj
update as plain Dequantization with the same alpha, whatever the
variational noise flows are: those flows are only invoked on the forward
path. -/
theorem varDequant_reverse_eq_plain {C H W : ℕ} (alpha : ℝ)
    (var_flows : List (Tensor C H W → Tensor C H W → ℝ → Tensor C H W × ℝ))
    (z : Tensor C H W) (ldj : ℝ) :
    varDequantReverse alpha var_flows z ldj = dequantReverse alpha z ldj := rfl

/-- Claim C10: for every real-valued input tensor, every element of the
integer tensor returned by Dequantization's reverse direction lies in
[0, 255], because the value is floored and clamped to that range before
the integer cast. -/
theorem dequantReverse_range {C H W : ℕ} (alpha : ℝ) (z : Tensor C H W) (ldj : ℝ)
    (c : Fin C) (h : Fin H) (w : Fin W) :
    0 ≤ (dequantReverse alpha z ldj).1 c h w ∧
      (dequantReverse alpha z ldj).1 c h w ≤ 255 := by
  constructor
  · exact le_max_left _ _
  · exact max_le (by norm_num) (min_le_left _ _)

/-- Over exact reals, `torch.sigmoid` inverts the source's logit
`log z - log (1 - z)` on (0, 1). -/
theorem sigmoidFn_logit {y : ℝ} (h0 : 0 < y) (h1 : y < 1) :
    sigmoidFn (Real.log y - Real.log (1 - y)) = y := by
  unfold sigmoidFn
  rw [neg_sub, Real.exp_sub, Real.exp_log (by linarith : (0:ℝ) < 1 - y),
    Real.exp_log h0]
  have hy : y ≠ 0 := ne_of_gt h0
  field_simp

/-- Scalar core of the dequantization round trip: with pixel value n in
[0, 255], noise x in [0, 1) and 0 < alpha < 1/256, the reverse pass on
the forward output clamps the floor of
`r = (n + x) * (1 - alpha) + 128 * alpha`, which lies within one level of
n; it equals n exactly iff the noise and alpha blend do not move r across
the integer boundary. -/
theorem dequant_roundtrip_elem (alpha : ℝ) (n : ℤ) (x : ℝ)
    (hn0 : 0 ≤ n) (hn1 : n ≤ 255) (hx0 : 0 ≤ x) (hx1 : x < 1)
    (ha0 : 0 < alpha) (ha1 : alpha < 1/256) :
    |max 0 (min 255 ⌊sigmoidFn (Real.log (deqBlend alpha (((n : ℝ) + x) / 256))
        - Real.log (1 - deqBlend alpha (((n : ℝ) + x) / 256))) * 256⌋) - n| ≤ 1 ∧
    (((n : ℝ) ≤ ((n : ℝ) + x) * (1 - alpha) + 128 * alpha) →
     (((n : ℝ) + x) * (1 - alpha) + 128 * alpha < (n : ℝ) + 1) →
     max 0 (min 255 ⌊sigmoidFn (Real.log (deqBlend alpha (((n : ℝ) + x) / 256))
        - Real.log (1 - deqBlend alpha (((n : ℝ) + x) / 256))) * 256⌋) = n) := by
  have hn0' : (0 : ℝ) ≤ (n : ℝ) := by exact_mod_cast hn0
  have hn1' : (n : ℝ) ≤ 255 := by exact_mod_cast hn1
  have hq0 : 0 ≤ ((n : ℝ) + x) / 256 := div_nonneg (by linarith) (by norm_num)
  have hq1 : ((n : ℝ) + x) / 256 < 1 := by
    rw [div_lt_one (by norm_num)]
    linarith
  have hy0 : 0 < deqBlend alpha (((n : ℝ) + x) / 256) := by
    unfold deqBlend
    nlinarith
  have hy1 : deqBlend alpha (((n : ℝ) + x) / 256) < 1 := by
    unfold deqBlend
    nlinarith
  have hsig := sigmoidFn_logit hy0 hy1
  rw [hsig]
  have hr : deqBlend alpha (((n : ℝ) + x) / 256) * 256
      = ((n : ℝ) + x) * (1 - alpha) + 128 * alpha := by
    unfold deqBlend
    ring
  rw [hr]
  have hrw : ((n : ℝ) + x) * (1 - alpha) + 128 * alpha
      = (n : ℝ) + x + alpha * (128 - (n : ℝ) - x) := by ring
  have hBle : alpha * (128 - (n : ℝ) - x) ≤ alpha * 128 :=
    mul_le_mul_of_nonneg_left (by linarith) ha0.le
  have hBge : alpha * (-128) ≤ alpha * (128 - (n : ℝ) - x) :=
    mul_le_mul_of_nonneg_left (by linarith) ha0.le
  have h128 : alpha * 128 < 1/2 := by nlinarith
  have hfu : ⌊((n : ℝ) + x) * (1 - alpha) + 128 * alpha⌋ ≤ n + 1 := by
    have : ⌊((n : ℝ) + x) * (1 - alpha) + 128 * alpha⌋ < n + 2 := by
      refine Int.floor_lt.mpr ?_
      push_cast
      rw [hrw]
      linarith
    omega
  have hfl : n - 1 ≤ ⌊((n : ℝ) + x) * (1 - alpha) + 128 * alpha⌋ := by
    refine Int.le_floor.mpr ?_
    push_cast
    rw [hrw]
    linarith
  constructor
  · rw [abs_le]
    omega
  · intro hc1 hc2
    have hfe : ⌊((n : ℝ) + x) * (1 - alpha) + 128 * alpha⌋ = n :=
      Int.floor_eq_iff.mpr ⟨hc1, by push_cast; linarith⟩
    rw [hfe]
    omega

/-- Claim C6: for every integer pixel tensor with values in [0, 255],
every dequantization noise draw in [0, 1) and 0 < alpha < 1/256,
applying Dequantization forward and then reverse reconstructs each pixel
exactly whenever the noise and the alpha boundary blend leave
`(v + u) * (1 - alpha) + 128 * alpha` inside `[v, v + 1)` (no integer
boundary crossing), and in every case reconstructs it within one pixel
level. -/
theorem dequant_roundtrip {C H W : ℕ} (alpha : ℝ) (v : ZTensor C H W)
    (u : Tensor C H W) (ldj ldj2 : ℝ)
    (hv : ∀ c h w, 0 ≤ v c h w ∧ v c h w ≤ 255)
    (hu : ∀ c h w, 0 ≤ u c h w ∧ u c h w < 1)
    (ha0 : 0 < alpha) (ha1 : alpha < 1/256) (c : Fin C) (h : Fin H) (w : Fin W) :
    |(dequantReverse alpha (dequantForward alpha v u ldj).1 ldj2).1 c h w
        - v c h w| ≤ 1 ∧
    (((v c h w : ℝ) ≤ ((v c h w : ℝ) + u c h w) * (1 - alpha) + 128 * alpha) →
     (((v c h w : ℝ) + u c h w) * (1 - alpha) + 128 * alpha < (v c h w : ℝ) + 1) →
     (dequantReverse alpha (dequantForward alpha v u ldj).1 ldj2).1 c h w
        = v c h w) :=
  dequant_roundtrip_elem alpha (v c h w) (u c h w) (hv c h w).1 (hv c h w).2
    (hu c h w).1 (hu c h w).2 ha0 ha1

/-- Witness for `dequant_roundtrip`: pixel value 0, noise 0, alpha 1/512
on a 1x1x1 image. -/
theorem dequant_roundtrip_witness :
    |(dequantReverse (1/512) (dequantForward (1/512)
        (fun (_ : Fin 1) (_ : Fin 1) (_ : Fin 1) => (0 : ℤ))
        (fun _ _ _ => (0 : ℝ)) 0).1 0).1 0 0 0 - (0 : ℤ)| ≤ 1 ∧
    ((((0 : ℤ) : ℝ) ≤ (((0 : ℤ) : ℝ) + 0) * (1 - 1/512) + 128 * (1/512)) →
     ((((0 : ℤ) : ℝ) + 0) * (1 - 1/512) + 128 * (1/512) < ((0 : ℤ) : ℝ) + 1) →
     (dequantReverse (1/512) (dequantForward (1/512)
        (fun (_ : Fin 1) (_ : Fin 1) (_ : Fin 1) => (0 : ℤ))
        (fun _ _ _ => (0 : ℝ)) 0).1 0).1 0 0 0 = 0) :=
  dequant_roundtrip (1/512) (fun _ _ _ => (0 : ℤ)) (fun _ _ _ => (0 : ℝ)) 0 0
    (fun _ _ _ => ⟨le_refl 0, by norm_num⟩)
    (fun _ _ _ => ⟨le_refl 0, by norm_num⟩)
    (by norm_num) (by norm_num) 0 0 0

/-! ### ImageFlow likelihood path (source lines 116-136)

The pipeline used by the simple flows: one Dequantization layer followed
by coupling layers.  `forward` starts ldj at zero, threads `(z, ldj)`
through every flow with reverse=False, adds the prior log-probability of
the final latent, negates to get the negative log-likelihood, and
converts to bits per dimension by multiplying with `np.log2(np.e)` and
dividing by the per-image pixel count `np.prod(imgs.shape[1:])`. -/

/-- Thread `(z, ldj)` through a list of coupling layers, forward direction. -/
def runCouplings {C H W : ℕ} (layers : List (CouplingLayer C H W))
    (z : Tensor C H W) (ldj : ℝ) : Tensor C H W × ℝ :=
  layers.foldl (fun p L => couplingForward L p.1 p.2) (z, ldj)

/-- Bits per dimension of one image under the dequantization + coupling
pipeline (`ImageFlow.forward` with `return_nll=False`), with an explicit
dequantization noise draw `u`. -/
def imageFlowBpd {C H W : ℕ} (alpha : ℝ) (layers : List (CouplingLayer C H W))
    (v : ZTensor C H W) (u : Tensor C H W) : ℝ :=
  let d := dequantForward alpha v u 0;
  let r := runCouplings layers d.1 d.2;
  let log_pz := sumCHW (fun c h w => stdNormalLogProb (r.1 c h w));
  -(r.2 + log_pz) * Real.logb 2 (Real.exp 1) / ((C * H * W : ℕ) : ℝ)

/-- Claim C7 (amended): for every image, parameter setting and noise
draw, the per-image bits-per-dimension value is the negated total
log-probability times log2(e) over the pixel count, and it is
non-negative exactly when that total log-probability (ldj plus final
prior log-probability) is at most zero; it is not non-negative
unconditionally (see the counterexample). -/
theorem imageFlowBpd_sign {C H W : ℕ} (alpha : ℝ)
    (layers : List (CouplingLayer C H W)) (v : ZTensor C H W) (u : Tensor C H W)
    (hD : 0 < C * H * W) :
    0 ≤ imageFlowBpd alpha layers v u ↔
      (runCouplings layers (dequantForward alpha v u 0).1
          (dequantForward alpha v u 0).2).2
        + sumCHW (fun c h w => stdNormalLogProb
            ((runCouplings layers (dequantForward alpha v u 0).1
                (dequantForward alpha v u 0).2).1 c h w)) ≤ 0 := by
  have hk : 0 < Real.logb 2 (Real.exp 1) := by
    refine Real.logb_pos (by norm_num) ?_
    have := Real.exp_one_gt_d9
    linarith
  have hD' : (0 : ℝ) < ((C * H * W : ℕ) : ℝ) := by exact_mod_cast hD
  have hrw : imageFlowBpd alpha layers v u
      = -((runCouplings layers (dequantForward alpha v u 0).1
            (dequantForward alpha v u 0).2).2
          + sumCHW (fun c h w => stdNormalLogProb
              ((runCouplings layers (dequantForward alpha v u 0).1
                  (dequantForward alpha v u 0).2).1 c h w)))
          * Real.logb 2 (Real.exp 1) / ((C * H * W : ℕ) : ℝ) := rfl
  rw [hrw, mul_div_assoc, mul_nonneg_iff_of_pos_right (div_pos hk hD'), neg_nonneg]

/-- All-zero 1x1x1 integer image, used in witnesses. -/
def zeroImage : ZTensor 1 1 1 := fun _ _ _ => 0

/-- All-zero 1x1x1 noise tensor, used in witnesses. -/
def zeroNoise : Tensor 1 1 1 := fun _ _ _ => 0

/-- Witness for `imageFlowBpd_sign`: the empty coupling list on a 1x1x1
zero image with zero noise and alpha 0. -/
theorem imageFlowBpd_sign_witness :
    0 ≤ imageFlowBpd 0 ([] : List (CouplingLayer 1 1 1)) zeroImage zeroNoise ↔
      (runCouplings [] (dequantForward 0 zeroImage zeroNoise 0).1
          (dequantForward 0 zeroImage zeroNoise 0).2).2
        + sumCHW (fun c h w => stdNormalLogProb
            ((runCouplings [] (dequantForward 0 zeroImage zeroNoise 0).1
                (dequantForward 0 zeroImage zeroNoise 0).2).1 c h w)) ≤ 0 :=
  imageFlowBpd_sign 0 [] zeroImage zeroNoise (by norm_num)

/-- tanh is at least 3/4 from 1 on: used to bound the stabilized scale of
the counterexample coupling layer from below. -/
theorem tanh_ge_three_quarters {x : ℝ} (hx : 1 ≤ x) : 3/4 ≤ Real.tanh x := by
  rw [Real.tanh_eq_sinh_div_cosh, Real.sinh_eq, Real.cosh_eq]
  have hF : 0 < Real.exp (-x) := Real.exp_pos _
  have h7 : Real.exp (-x) * 7 ≤ Real.exp x := by
    have h2 : (7 : ℝ) < Real.exp 2 := by
      have h1 := Real.exp_one_gt_d9
      have hsq : (2.7182818283 : ℝ)^2 < (Real.exp 1)^2 := by nlinarith
      have h2e : (Real.exp 1)^2 = Real.exp 2 := by
        rw [← Real.exp_nat_mul]
        norm_num
      nlinarith
    have h2x : Real.exp 2 ≤ Real.exp (2 * x) := Real.exp_le_exp.mpr (by linarith)
    have hprod : Real.exp (-x) * Real.exp (2 * x) = Real.exp x := by
      rw [← Real.exp_add]
      ring_nf
    calc Real.exp (-x) * 7 ≤ Real.exp (-x) * Real.exp (2 * x) := by
          apply mul_le_mul_of_nonneg_left (by linarith) hF.le
      _ = Real.exp x := hprod
  rw [le_div_iff (by positivity)]
  linarith

theorem exp_five_lt_thousand : Real.exp 5 < 1000 := by
  have h1 := Real.exp_one_lt_d9
  have h5 : Real.exp 5 = (Real.exp 1)^5 := by
    rw [← Real.exp_nat_mul]
    norm_num
  rw [h5]
  calc (Real.exp 1)^5 < (2.7182818286 : ℝ)^5 :=
        pow_lt_pow_left h1 (Real.exp_pos 1).le (by norm_num)
    _ < 1000 := by norm_num

theorem exp_five_ge : (148 : ℝ) ≤ Real.exp 5 := by
  have h1 := Real.exp_one_gt_d9
  have h5 : Real.exp 5 = (Real.exp 1)^5 := by
    rw [← Real.exp_nat_mul]
    norm_num
  rw [h5]
  calc (148 : ℝ) ≤ (2.7182818283 : ℝ)^5 := by norm_num
    _ ≤ (Real.exp 1)^5 :=
        pow_le_pow_left (by norm_num) h1.le 5

/-- Counterexample coupling layer on a 1x1x1 image: all-zero mask, a
constant approximator emitting raw scale 1000 and translation 0 (a
ConvNet realizes any constant output with zero weights and a constant
bias), and scaling_factor 5. -/
def cexLayer : CouplingLayer 1 1 1 :=
  ⟨fun _ _ _ => 0,
   fun _ => fun c _ _ => if (c : ℕ) = 0 then 1000 else 0,
   fun _ => 5⟩

/-- The constant-128 1x1x1 integer image. -/
def cexImage : ZTensor 1 1 1 := fun _ _ _ => 128

/-- Claim C7 (counterexample): the bits-per-dimension value of the
dequantization + coupling pipeline is NOT non-negative for every image,
parameter setting and noise draw: with pixel value 128, noise 0, the
default alpha 1e-5 and the coupling layer `cexLayer`, the stabilized
scale contributes tanh(1000/e^5)*e^5 > 111 to ldj while every other term
of the total log-probability is bounded below -7, so the negative
log-likelihood (hence the bpd) is negative. -/
theorem imageFlowBpd_nonneg_cex :
    imageFlowBpd (1/100000) [cexLayer] cexImage zeroNoise < 0 := by
  have hblend : deqBlend (1/100000) ((((128 : ℤ) : ℝ) + 0) / 256) = 1/2 := by
    unfold deqBlend
    norm_num
  -- the dequantized value is the logit of 1/2, i.e. zero
  have hdv : ∀ c h w, (dequantForward (1/100000) cexImage zeroNoise 0).1 c h w = 0 := by
    intro c h w
    show Real.log (deqBlend (1/100000) ((((128 : ℤ) : ℝ) + 0) / 256))
        - Real.log (1 - deqBlend (1/100000) ((((128 : ℤ) : ℝ) + 0) / 256)) = 0
    rw [hblend]
    norm_num
  -- the dequantization ldj, exactly
  have hdl : (dequantForward (1/100000) cexImage zeroNoise 0).2
      = -(Real.log 256) + Real.log (1 - 1/100000) + 2 * Real.log 2 := by
    show (0 - Real.log 256 * ((1*1*1 : ℕ) : ℝ))
        + Real.log (1 - 1/100000) * ((1*1*1 : ℕ) : ℝ)
        + sumCHW (fun c h w =>
            -Real.log (deqBlend (1/100000) ((((128 : ℤ) : ℝ) + 0) / 256))
            - Real.log (1 - deqBlend (1/100000) ((((128 : ℤ) : ℝ) + 0) / 256)))
        = -(Real.log 256) + Real.log (1 - 1/100000) + 2 * Real.log 2
    rw [sumCHW_one, hblend]
    have hhalf : Real.log (1/2 : ℝ) = -Real.log 2 := by
      rw [one_div, Real.log_inv]
    norm_num [hhalf]
    ring
  -- the stabilized scale at the single position
  have hscale : couplingScale cexLayer
      (maskedInput cexLayer (dequantForward (1/100000) cexImage zeroNoise 0).1) 0 0 0
      = Real.tanh (1000 / Real.exp 5) * Real.exp 5 := by
    show Real.tanh (chunkFst (cexLayer.network _) 0 0 0 / Real.exp (cexLayer.scaling_factor 0))
        * Real.exp (cexLayer.scaling_factor 0) * (1 - cexLayer.mask 0 0 0)
        = Real.tanh (1000 / Real.exp 5) * Real.exp 5
    have hfst : chunkFst (cexLayer.network
        (maskedInput cexLayer (dequantForward (1/100000) cexImage zeroNoise 0).1)) 0 0 0
        = 1000 := rfl
    rw [hfst]
    show Real.tanh (1000 / Real.exp 5) * Real.exp 5 * (1 - 0) = _
    ring
  -- the translation at the single position is zero
  have hshift : couplingShift cexLayer
      (maskedInput cexLayer (dequantForward (1/100000) cexImage zeroNoise 0).1) 0 0 0
      = 0 := by
    show chunkSnd (cexLayer.network _) 0 0 0 * (1 - cexLayer.mask 0 0 0) = 0
    have hsnd : chunkSnd (cexLayer.network
        (maskedInput cexLayer (dequantForward (1/100000) cexImage zeroNoise 0).1)) 0 0 0
        = 0 := rfl
    rw [hsnd]
    ring
  -- the coupling output value is zero
  have hz1 : (couplingForward cexLayer (dequantForward (1/100000) cexImage zeroNoise 0).1
      (dequantForward (1/100000) cexImage zeroNoise 0).2).1 0 0 0 = 0 := by
    show ((dequantForward (1/100000) cexImage zeroNoise 0).1 0 0 0
        + couplingShift cexLayer
            (maskedInput cexLayer (dequantForward (1/100000) cexImage zeroNoise 0).1) 0 0 0)
        * Real.exp (couplingScale cexLayer
            (maskedInput cexLayer (dequantForward (1/100000) cexImage zeroNoise 0).1) 0 0 0)
        = 0
    rw [hdv, hshift]
    ring
  -- assemble: bpd = -(ldj_deq + scale + log_pz) * log2(e) / 1
  have hfinal : imageFlowBpd (1/100000) [cexLayer] cexImage zeroNoise
      = -((dequantForward (1/100000) cexImage zeroNoise 0).2
          + sumCHW (couplingScale cexLayer
              (maskedInput cexLayer (dequantForward (1/100000) cexImage zeroNoise 0).1))
          + sumCHW (fun c h w => stdNormalLogProb
              ((couplingForward cexLayer (dequantForward (1/100000) cexImage zeroNoise 0).1
                  (dequantForward (1/100000) cexImage zeroNoise 0).2).1 c h w)))
        * Real.logb 2 (Real.exp 1) / ((1*1*1 : ℕ) : ℝ) := rfl
  have hsum : sumCHW (couplingScale cexLayer
      (maskedInput cexLayer (dequantForward (1/100000) cexImage zeroNoise 0).1))
      = Real.tanh (1000 / Real.exp 5) * Real.exp 5 := by
    rw [sumCHW_one, hscale]
  have hlpz : sumCHW (fun c h w => stdNormalLogProb
      ((couplingForward cexLayer (dequantForward (1/100000) cexImage zeroNoise 0).1
          (dequantForward (1/100000) cexImage zeroNoise 0).2).1 c h w))
      = -Real.log (Real.sqrt (2 * Real.pi)) := by
    rw [sumCHW_one, hz1]
    show -((0 : ℝ)^2) / 2 - Real.log (Real.sqrt (2 * Real.pi)) = _
    ring
  -- numeric bounds
  have hl2u := Real.log_two_lt_d9
  have hl2l := Real.log_two_gt_d9
  have hlog256 : Real.log 256 = 8 * Real.log 2 := by
    rw [show (256 : ℝ) = 2^8 by norm_num, Real.log_pow]
    norm_num
  have hlinv : (-0.0001 : ℝ) ≤ Real.log (1 - 1/100000) := by
    have h1 : Real.log ((1 - 1/100000 : ℝ)⁻¹) ≤ (1 - 1/100000 : ℝ)⁻¹ - 1 :=
      Real.log_le_sub_one_of_pos (by norm_num)
    have h2 : Real.log ((1 - 1/100000 : ℝ)⁻¹) = -Real.log (1 - 1/100000) :=
      Real.log_inv _
    have h3 : ((1 - 1/100000 : ℝ)⁻¹ - 1) ≤ 0.0001 := by norm_num
    linarith
  have hsqrt : Real.log (Real.sqrt (2 * Real.pi)) ≤ 1.6 := by
    have h2pi : (2 : ℝ) * Real.pi ≤ 6.76 := by
      have := Real.pi_lt_d2
      linarith
    have hle : Real.sqrt (2 * Real.pi) ≤ 2.6 := by
      have hstep : Real.sqrt (2 * Real.pi) ≤ Real.sqrt 6.76 := Real.sqrt_le_sqrt h2pi
      have h26 : Real.sqrt 6.76 = 2.6 := by
        rw [show (6.76 : ℝ) = 2.6^2 by norm_num, Real.sqrt_sq (by norm_num : (0:ℝ) ≤ 2.6)]
      linarith
    have hpos : 0 < Real.sqrt (2 * Real.pi) := Real.sqrt_pos.mpr (by positivity)
    calc Real.log (Real.sqrt (2 * Real.pi)) ≤ Real.sqrt (2 * Real.pi) - 1 :=
          Real.log_le_sub_one_of_pos hpos
      _ ≤ 1.6 := by linarith
  have harg : (1 : ℝ) ≤ 1000 / Real.exp 5 := by
    rw [le_div_iff (Real.exp_pos 5)]
    have := exp_five_lt_thousand
    linarith
  have htanh := tanh_ge_three_quarters harg
  have hS : (111 : ℝ) ≤ Real.tanh (1000 / Real.exp 5) * Real.exp 5 := by
    have := exp_five_ge
    nlinarith [Real.exp_pos 5]
  -- total log-probability is strictly positive, so the nll is negative
  have htot : 0 < (dequantForward (1/100000) cexImage zeroNoise 0).2
      + Real.tanh (1000 / Real.exp 5) * Real.exp 5
      + -Real.log (Real.sqrt (2 * Real.pi)) := by
    rw [hdl, hlog256]
    linarith
  have hk : 0 < Real.logb 2 (Real.exp 1) := by
    refine Real.logb_pos (by norm_num) ?_
    have := Real.exp_one_gt_d9
    linarith
  rw [hfinal, hsum, hlpz]
  have hone : ((1*1*1 : ℕ) : ℝ) = 1 := by norm_num
  rw [hone, div_one]
  exact mul_neg_of_neg_of_pos (by linarith) hk

/-! ### Batched likelihood path (Claim C8)

The source computes the whole batch with vectorized tensor operations:
every operation of the dequantization and coupling layers is either
elementwise or a reduction over dims [1,2,3] only, the ldj tensor holds
one entry per batch element, and the convolutional approximator
(Conv2d / GELU / LayerNorm over [C, H, W]) processes each batch element
independently.  The batched layers below therefore apply the per-image
maps at every batch index, which is exactly the vectorized semantics. -/

/-- A batched (B, C, H, W) real tensor. -/
abbrev BTensor (B C H W : ℕ) : Type := Fin B → Tensor C H W

/-- A batched (B, C, H, W) integer tensor. -/
abbrev BZTensor (B C H W : ℕ) : Type := Fin B → ZTensor C H W

/-- Batched CouplingLayer.forward (reverse=False). -/
def bCouplingForward {B C H W : ℕ} (L : CouplingLayer C H W)
    (z : BTensor B C H W) (ldj : Fin B → ℝ) : BTensor B C H W × (Fin B → ℝ) :=
  ((fun b => (couplingForward L (z b) (ldj b)).1),
   fun b => (couplingForward L (z b) (ldj b)).2)

/-- Batched Dequantization.forward (reverse=False) with per-image noise. -/
def bDequantForward {B C H W : ℕ} (alpha : ℝ) (v : BZTensor B C H W)
    (u : BTensor B C H W) (ldj : Fin B → ℝ) : BTensor B C H W × (Fin B → ℝ) :=
  ((fun b => (dequantForward alpha (v b) (u b) (ldj b)).1),
   fun b => (dequantForward alpha (v b) (u b) (ldj b)).2)

/-- Thread the batched `(z, ldj)` through the coupling layers. -/
def bRunCouplings {B C H W : ℕ} (layers : List (CouplingLayer C H W))
    (z : BTensor B C H W) (ldj : Fin B → ℝ) : BTensor B C H W × (Fin B → ℝ) :=
  layers.foldl (fun p L => bCouplingForward L p.1 p.2) (z, ldj)

/-- `ImageFlow.forward` on a batch: per-image bits per dimension. -/
def imageFlowBpdBatch {B C H W : ℕ} (alpha : ℝ)
    (layers : List (CouplingLayer C H W)) (v : BZTensor B C H W)
    (u : BTensor B C H W) : Fin B → ℝ :=
  let d := bDequantForward alpha v u (fun _ => 0);
  let r := bRunCouplings layers d.1 d.2;
  fun b => -(r.2 b + sumCHW (fun c h w => stdNormalLogProb (r.1 b c h w)))
    * Real.logb 2 (Real.exp 1) / ((C * H * W : ℕ) : ℝ)

/-- The batched coupling stack agrees pointwise with the per-image stack. -/
theorem bRunCouplings_apply {B C H W : ℕ} (layers : List (CouplingLayer C H W))
    (z : BTensor B C H W) (ldj : Fin B → ℝ) (b : Fin B) :
    (bRunCouplings layers z ldj).1 b = (runCouplings layers (z b) (ldj b)).1 ∧
    (bRunCouplings layers z ldj).2 b = (runCouplings layers (z b) (ldj b)).2 := by
  induction layers generalizing z ldj with
  | nil => exact ⟨rfl, rfl⟩
  | cons L ls ih =>
      exact ih (fun b => (couplingForward L (z b) (ldj b)).1)
        (fun b => (couplingForward L (z b) (ldj b)).2)

/-- The batched bpd of each batch element is the per-image bpd of that
element: the computation is independent across the batch. -/
theorem imageFlowBpdBatch_apply {B C H W : ℕ} (alpha : ℝ)
    (layers : List (CouplingLayer C H W)) (v : BZTensor B C H W)
    (u : BTensor B C H W) (b : Fin B) :
    imageFlowBpdBatch alpha layers v u b = imageFlowBpd alpha layers (v b) (u b) := by
  obtain ⟨h1, h2⟩ := bRunCouplings_apply layers
    (bDequantForward alpha v u (fun _ => 0)).1
    (bDequantForward alpha v u (fun _ => 0)).2 b
  show -((bRunCouplings layers (bDequantForward alpha v u (fun _ => 0)).1
        (bDequantForward alpha v u (fun _ => 0)).2).2 b
      + sumCHW (fun c h w => stdNormalLogProb
          ((bRunCouplings layers (bDequantForward alpha v u (fun _ => 0)).1
              (bDequantForward alpha v u (fun _ => 0)).2).1 b c h w)))
    * Real.logb 2 (Real.exp 1) / ((C * H * W : ℕ) : ℝ) = _
  rw [h1, h2]
  rfl

/-- Claim C8: for the pipeline of one dequantization layer followed by
coupling layers, permuting the batch (with the per-image noise draws
permuted along with it) permutes the returned per-image
bits-per-dimension values correspondingly: each image's bpd is computed
independently of the other batch members. -/
theorem imageFlowBpdBatch_perm {B C H W : ℕ} (alpha : ℝ)
    (layers : List (CouplingLayer C H W)) (v : BZTensor B C H W)
    (u : BTensor B C H W) (σ : Equiv.Perm (Fin B)) (b : Fin B) :
    imageFlowBpdBatch alpha layers (fun i => v (σ i)) (fun i => u (σ i)) b
      = imageFlowBpdBatch alpha layers v u (σ b) := by
  rw [imageFlowBpdBatch_apply, imageFlowBpdBatch_apply]
